import Mathlib

/-!
Shallow embedding of `basicrta/gibbs.py` (class `Gibbs`): the exponential-mixture
Gibbs sampler, its checkpointed chain store, and the post-processing /
component-reduction step, together with theorems settling the specification
claims about them.

Conventions of the embedding:
* real numbers are modelled by `ℚ`; the transcendental functions `np.exp` and
  `np.log` are passed in as function parameters (`pexp`, `plog`);
* the module-level NumPy generator `rng = default_rng()` is modelled as a
  stream of draw outcomes (`Draws`): each iteration consumes the next element;
  the draw procedures (`rng.multinomial` / `rng.dirichlet` / `rng.gamma`) are
  oracle fields whose arguments are exactly the arguments the code passes;
* the bare names `g` and `x` read inside `Gibbs._prepare` and `Gibbs.run` are
  embedded as the checkpoint interval (the class attribute `self.g`) and the
  durations array `self.times`, the evident referents;
* the `np.uint8` label memmap is modelled by storing label values reduced
  modulo 256 (`storeLabel`);
* fallible library calls (`sklearn.cluster.KMeans`) are modelled with `Except`,
  following the documented sklearn contract that a fit with `n_clusters < 1`
  or with fewer samples than clusters raises an error.
-/

namespace Basicrta

/-- Outcomes of the random draws one sampler iteration consumes from the
module-level generator `rng`.  `label` is the categorical draw
`argmax(rng.multinomial(1, z), axis=1)` viewed as a function of the normalized
responsibility matrix `z`; `dirichlet` is `rng.dirichlet` as a function of its
concentration argument; `gamma` is `rng.gamma` per component as a function of
the shape and scale arguments. -/
structure Draws (K N : ℕ) where
  label : (Fin N → Fin K → ℚ) → Fin N → Fin K
  dirichlet : (Fin K → ℚ) → Fin K → ℚ
  gamma : Fin K → ℚ → ℚ → ℚ

/-- Current mixture state of the sampler: the weight and rate vectors. -/
structure GState (K : ℕ) where
  weights : Fin K → ℚ
  rates : Fin K → ℚ

/-- Chain store allocated by `Gibbs._prepare`: per checkpoint row, the weight
vector (`self.mcweights`), the rate vector (`self.mcrates`) and the
per-observation latent labels (`self.indicator`, a `np.uint8` memmap). -/
structure ChainStore (K N : ℕ) where
  mcweights : List (Fin K → ℚ)
  mcrates : List (Fin K → ℚ)
  indicator : List (Fin N → ℕ)

/-- Value actually recorded for a latent label in the `np.uint8` memmap:
the sampled label reduced modulo 256. -/
def storeLabel (v : ℕ) : ℕ := v % 256

/-- Dirichlet concentration hyperparameters from `Gibbs._prepare`:
`np.ones(ncomp) / [ncomp]`. -/
def whypersOf (K : ℕ) : Fin K → ℚ := fun _ => 1 / (K : ℚ)

/-- Gamma (shape, rate) hyperparameter rows from `Gibbs._prepare`:
`np.ones((ncomp, 2)) * [1, 3]`. -/
def rhypersOf (K : ℕ) : Fin K → ℚ × ℚ := fun _ => (1, 3)

/-- Unnormalized responsibilities of `Gibbs.run`:
`tmp = weights * rates * np.exp(np.outer(-rates, x)).T`, so entry `(t, k)` is
`weights[k] * rates[k] * exp(-rates[k] * x[t])`. -/
def tmpResp (pexp : ℚ → ℚ) (w r : Fin K → ℚ) (x : Fin N → ℚ) :
    Fin N → Fin K → ℚ :=
  fun t k => w k * r k * pexp (-r k * x t)

/-- Row-normalized responsibilities of `Gibbs.run`:
`z = (tmp.T / tmp.sum(axis=1)).T`. -/
def zResp (pexp : ℚ → ℚ) (w r : Fin K → ℚ) (x : Fin N → ℚ) :
    Fin N → Fin K → ℚ :=
  fun t k => tmpResp pexp w r x t k / ∑ m, tmpResp pexp w r x t m

/-- Per-component assignment counts of `Gibbs.run`:
`Ns[i] = len(np.where(s == i)[0])`. -/
def NsOf (s : Fin N → Fin K) : Fin K → ℕ :=
  fun k => (Finset.univ.filter (fun t => s t = k)).card

/-- Per-component total assigned duration of `Gibbs.run`:
`Ts[i] = times[inds[i]].sum()`. -/
def TsOf (x : Fin N → ℚ) (s : Fin N → Fin K) : Fin K → ℚ :=
  fun k => ∑ t ∈ Finset.univ.filter (fun t => s t = k), x t

/-- One iteration of the loop body of `Gibbs.run`: compute responsibilities,
draw the latent labels, accumulate the sufficient statistics `Ns`, `Ts`, redraw
the weights from `rng.dirichlet(whypers + Ns)` and the rates from
`rng.gamma(rhypers[:, 0] + Ns, 1 / (rhypers[:, 1] + Ts))`.  Returns the new
state together with the label vector drawn this iteration. -/
def gibbsStep (pexp : ℚ → ℚ) (whypers : Fin K → ℚ) (rhypers : Fin K → ℚ × ℚ)
    (x : Fin N → ℚ) (d : Draws K N) (st : GState K) :
    GState K × (Fin N → Fin K) :=
  let z := zResp pexp st.weights st.rates x
  let s := d.label z
  let w := d.dirichlet (fun k => whypers k + (NsOf s k : ℚ))
  let r := fun k =>
    d.gamma k ((rhypers k).1 + (NsOf s k : ℚ)) (1 / ((rhypers k).2 + TsOf x s k))
  (⟨w, r⟩, s)

/-- Chain store as freshly allocated by `Gibbs._prepare`: `rows` zero rows. -/
def zeroStore (K N rows : ℕ) : ChainStore K N :=
  ⟨List.replicate rows (fun _ => 0), List.replicate rows (fun _ => 0),
   List.replicate rows (fun _ => 0)⟩

/-- Iteration `j` of `Gibbs.run` including the checkpoint write: when
`j % g == 0` the freshly drawn weights, rates and (uint8-cast) labels are
written at row `j // g - 1`. -/
def stepWrite (pexp : ℚ → ℚ) (whypers : Fin K → ℚ) (rhypers : Fin K → ℚ × ℚ)
    (x : Fin N → ℚ) (dstream : ℕ → Draws K N) (g : ℕ) (j : ℕ)
    (acc : GState K × ChainStore K N) : GState K × ChainStore K N :=
  let res := gibbsStep pexp whypers rhypers x (dstream j) acc.1
  if j % g = 0 then
    (res.1,
      ⟨acc.2.mcweights.set (j / g - 1) res.1.weights,
       acc.2.mcrates.set (j / g - 1) res.1.rates,
       acc.2.indicator.set (j / g - 1) (fun t => storeLabel (res.2 t).val)⟩)
  else (res.1, acc.2)

/-- First `m` iterations of the loop of `Gibbs.run` (iterations `1..m`),
starting from the zero-initialized store with `rows` rows. -/
def runAux (pexp : ℚ → ℚ) (whypers : Fin K → ℚ) (rhypers : Fin K → ℚ × ℚ)
    (x : Fin N → ℚ) (dstream : ℕ → Draws K N) (g rows : ℕ) (init : GState K) :
    ℕ → GState K × ChainStore K N
  | 0 => (init, zeroStore K N rows)
  | m + 1 =>
    stepWrite pexp whypers rhypers x dstream g (m + 1)
      (runAux pexp whypers rhypers x dstream g rows init m)

/-- Full `Gibbs.run` loop: iterations `1..niter` over a store of
`(niter + 1) // g` rows (the allocation size used in `Gibbs._prepare`). -/
def runGibbs (pexp : ℚ → ℚ) (whypers : Fin K → ℚ) (rhypers : Fin K → ℚ × ℚ)
    (x : Fin N → ℚ) (dstream : ℕ → Draws K N) (niter g : ℕ)
    (init : GState K) : GState K × ChainStore K N :=
  runAux pexp whypers rhypers x dstream g ((niter + 1) / g) init niter

/-- Sorted copy of the duration sequence, `np.sort(times)`. -/
def sortedTimes (times : List ℚ) : List ℚ := times.insertionSort (· ≤ ·)

/-- Differences of adjacent entries, `l[1:] - l[:-1]`. -/
def adjDiffs (l : List ℚ) : List ℚ := (l.zip l.tail).map (fun p => p.2 - p.1)

/-- Time-scale derivation of `Gibbs.__init__`.  Outer `none` models an
uncaught exception (`diff[diff != 0][0]` on an empty selection); `some none`
models the silent `self.ts = None` taken when `times` is falsy; `some (some d)`
is a successfully derived scale `d`. -/
def tsOf (times : List ℚ) : Option (Option ℚ) :=
  if times = [] then some none
  else
    (((adjDiffs (sortedTimes times)).filter
      (fun d => decide (d ≠ 0))).head?).map some

/-- Stated from the words of the specification, for comparison with `tsOf`:
the smallest positive gap between adjacent values of the sorted sequence. -/
def specSmallestPosGap (times : List ℚ) : Option ℚ :=
  ((adjDiffs (sortedTimes times)).filter (fun d => decide (0 < d))).min?

/-- First positive gap between adjacent values of the sorted sequence; the
candidate amended description of the derived time scale. -/
def specFirstPosGap (times : List ℚ) : Option ℚ :=
  ((adjDiffs (sortedTimes times)).filter (fun d => decide (0 < d))).head?

/-- Element of a list at an index, with a default out-of-range value
(structural-recursion form of indexed array access). -/
def nthD {α : Type} (l : List α) (i : ℕ) (d : α) : α :=
  match l, i with
  | [], _ => d
  | a :: _, 0 => a
  | _ :: t, i + 1 => nthD t i d

/-- Mode of a list of naturals as computed by `scipy.stats.mode`: the most
frequent value, the smallest one when several values are tied. -/
def listMode (l : List ℕ) : ℕ :=
  let sorted := l.insertionSort (· ≤ ·)
  sorted.foldl (fun best c => if l.count best < l.count c then c else best)
    (sorted.headD 0)

/-- Surviving (checkpoint-offset, component) index pairs of
`np.where(mcweights[burnin_ind:] > cutoff)`, in row-major order. -/
def survPairs (post : List (List ℚ)) (cutoff : ℚ) : List (ℕ × ℕ) :=
  (List.range post.length).flatMap (fun j =>
    (List.range (nthD post j []).length).filterMap (fun k =>
      if cutoff < nthD (nthD post j []) k 0 then some (j, k) else none))

/-- Per-row surviving-component counts,
`lens = [len(row[row > cutoff]) for row in mcweights[burnin_ind:]]`. -/
def lensOf (post : List (List ℚ)) (cutoff : ℚ) : List ℕ :=
  post.map (fun row => (row.filter (fun w => decide (cutoff < w))).length)

/-- Values of an array selected at an index-pair list, `arr[inds]`. -/
def survVals (post : List (List ℚ)) (pairs : List (ℕ × ℕ)) : List ℚ :=
  pairs.map (fun p => nthD (nthD post p.1 []) p.2 0)

/-- Log-space clustering input of `Gibbs._process_gibbs`:
`np.log(np.stack((weights, rates), axis=1))`. -/
def survLogData (mcw mcr : List (List ℚ)) (cutoff : ℚ) (burninInd : ℕ)
    (plog : ℚ → ℚ) : List (ℚ × ℚ) :=
  let postW := mcw.drop burninInd
  let pairs := survPairs postW cutoff
  ((survVals postW pairs).zip (survVals (mcr.drop burninInd) pairs)).map
    (fun p => (plog p.1, plog p.2))

/-- Error raised by the `sklearn.cluster.KMeans` fit invoked by
`Gibbs._process_gibbs`. -/
inductive PGError where
  | kmeansBadNClusters
  | kmeansTooFewSamples
  deriving DecidableEq, Repr

/-- Fit step `KMeans(n_clusters=ncomp).fit(np.log(data))`.  Modelled from the
sklearn contract: the fit raises when `n_clusters < 1` or when there are fewer
samples than clusters; otherwise it returns the label vector `labels_`, here
supplied by the oracle `km` standing for the randomized clustering routine. -/
def kmeansFit (km : ℕ → List (ℚ × ℚ) → List ℕ) (k : ℕ)
    (data : List (ℚ × ℚ)) : Except PGError (List ℕ) :=
  if k = 0 then .error .kmeansBadNClusters
  else if data.length < k then .error .kmeansTooFewSamples
  else .ok (km k data)

/-- Membership count accumulated by the double loop of `Gibbs._process_gibbs`:
observation `t` gains one count in cluster `c` for every surviving pair
`(j, indx)` whose cluster label is `c` and with `indicator[j][t] == indx` —
note the row read is `indicator[j]` with `j` the offset into the post-burn-in
weight rows, exactly as in the code. -/
def membershipCounts (pairs : List (ℕ × ℕ)) (labels : List ℕ)
    (indicator : List (List ℕ)) (t c : ℕ) : ℕ :=
  ((pairs.zip labels).filter (fun pl =>
    decide (nthD (nthD indicator pl.1.1 []) t (pl.1.2 + 1) = pl.1.2) &&
    decide (pl.2 = c))).length

/-- Elementwise float division with the NumPy zero-denominator behavior:
`none` stands for the NaN produced by `0.0 / 0.0`. -/
def qdivNaN (a b : ℚ) : Option ℚ := if b = 0 then none else some (a / b)

/-- Row `t` of `Indicator = (Indicator.T / Indicator.sum(axis=1)).T`. -/
def membershipRow (pairs : List (ℕ × ℕ)) (labels : List ℕ)
    (indicator : List (List ℕ)) (ncomp t : ℕ) : List (Option ℚ) :=
  let tot : ℚ :=
    (((List.range ncomp).map
      (fun c => membershipCounts pairs labels indicator t c)).sum : ℕ)
  (List.range ncomp).map (fun c =>
    qdivNaN (membershipCounts pairs labels indicator t c : ℚ) tot)

/-- Processed-results record assembled by `Gibbs._process_gibbs`. -/
structure Processed where
  ncomp : ℕ
  weights : List ℚ
  rates : List ℚ
  labels : List ℕ
  membership : List (List (Option ℚ))
  deriving DecidableEq, Repr

/-- Post-processor `Gibbs._process_gibbs`: drop the burn-in prefix, filter
components by weight cutoff, take the mode of the per-row surviving counts as
the reduced component count, cluster the surviving (weight, rate) pairs in log
space, and accumulate the per-observation membership matrix. -/
def processGibbs (mcw mcr : List (List ℚ)) (indicator : List (List ℕ))
    (nObs : ℕ) (cutoff : ℚ) (burnin g : ℕ) (plog : ℚ → ℚ)
    (km : ℕ → List (ℚ × ℚ) → List ℕ) : Except PGError Processed :=
  let burninInd := burnin / g
  let postW := mcw.drop burninInd
  let pairs := survPairs postW cutoff
  let ncomp := listMode (lensOf postW cutoff)
  let w := survVals postW pairs
  let r := survVals (mcr.drop burninInd) pairs
  let data := (w.zip r).map (fun p => (plog p.1, plog p.2))
  (kmeansFit km ncomp data).map (fun labels =>
    { ncomp := ncomp, weights := w, rates := r, labels := labels,
      membership := (List.range nObs).map
        (fun t => membershipRow pairs labels indicator ncomp t) })

/-- Squared Euclidean distance on the clustering plane. -/
def sqdist (p q : ℚ × ℚ) : ℚ := (p.1 - q.1) ^ 2 + (p.2 - q.2) ^ 2

/-- Points of a cluster under a label assignment. -/
def clusterPoints (data : List (ℚ × ℚ)) (labels : List ℕ) (c : ℕ) :
    List (ℚ × ℚ) :=
  ((data.zip labels).filter (fun pl => decide (pl.2 = c))).map (fun pl => pl.1)

/-- Mean of a point list. -/
def centroidOf (l : List (ℚ × ℚ)) : ℚ × ℚ :=
  ((l.map Prod.fst).sum / (l.length : ℚ), (l.map Prod.snd).sum / (l.length : ℚ))

/-- Lloyd fixed point: a label vector a k-means fit can return — every cluster
is nonempty and every point is at least as close to the centroid of its own
cluster as to any other centroid. -/
def isKMeansOutcome (k : ℕ) (data : List (ℚ × ℚ)) (labels : List ℕ) : Bool :=
  labels.length == data.length &&
  labels.all (fun l => decide (l < k)) &&
  (List.range k).all (fun c => decide (clusterPoints data labels c ≠ [])) &&
  (data.zip labels).all (fun pl => (List.range k).all (fun c =>
    decide (sqdist pl.1 (centroidOf (clusterPoints data labels pl.2)) ≤
      sqdist pl.1 (centroidOf (clusterPoints data labels c)))))

/-- Two label vectors describe the same partition up to a relabeling of the
clusters: they agree on which index pairs share a cluster. -/
def samePartitionB (l1 l2 : List ℕ) : Bool :=
  l1.length == l2.length &&
  (List.range l1.length).all (fun i => (List.range l1.length).all (fun j =>
    decide (l1.getD i 0 = l1.getD j 0) == decide (l2.getD i 0 = l2.getD j 0)))

/-- Concrete chain-store weights used to probe the clustering step: two
checkpoint rows over three components, each row summing to 1, with the third
component below the cutoff 1/4. -/
def mcwEx : List (List ℚ) := [[2/5, 2/5, 1/5], [9/20, 9/20, 1/10]]

/-- Concrete chain-store rates matching `mcwEx`. -/
def mcrEx : List (List ℚ) := [[1, 2, 17], [1, 2, 23]]

/-- Concrete label chain matching `mcwEx` (two observations). -/
def indEx : List (List ℕ) := [[0, 1], [0, 1]]

/-- Log oracle for the probe store: a function agreeing with a strictly
increasing map on the four values it is evaluated at
(2/5 < 9/20 < 1 < 2 mapped to 0 < 1 < 10 < 11). -/
def plogEx : ℚ → ℚ := fun q =>
  if q = 2/5 then 0 else if q = 9/20 then 1
  else if q = 1 then 10 else if q = 2 then 11 else 0

/-- Constant exponential oracle used for concrete sampler instantiations. -/
def expOne : ℚ → ℚ := fun _ => 1

/-- Constant duration vector used for concrete sampler instantiations. -/
def onesx : Fin 1 → ℚ := fun _ => 1

/-- Concrete initial sampler state. -/
def gInit : GState 1 := ⟨fun _ => 1, fun _ => 1⟩

/-- Draw outcomes whose dirichlet component is the constant simplex vector of
`Fin 1` and whose gamma component is the constant 1. -/
def drawsA : Draws 1 1 := ⟨fun _ _ => 0, fun _ _ => 1, fun _ _ _ => 1⟩

/-- Draw outcomes differing from `drawsA` in the dirichlet component. -/
def drawsB : Draws 1 1 := ⟨fun _ _ => 0, fun _ _ => 2, fun _ _ _ => 1⟩

/-- Stream of the module-level generator: the first consumed element (index 1)
is `drawsA`, everything after it is `drawsB`. -/
def sharedStream : ℕ → Draws 1 1 := fun j => if j ≤ 1 then drawsA else drawsB

/-- Weight-vector invariant, rate-vector invariant and label-range invariant
of one stored checkpoint row. -/
def RowOK (K N : ℕ) (store : ChainStore K N) (i : ℕ) : Prop :=
  (∑ k, store.mcweights.getD i (fun _ => 0) k) = 1 ∧
  (∀ k, 0 ≤ store.mcweights.getD i (fun _ => 0) k) ∧
  (∀ k, 0 < store.mcrates.getD i (fun _ => 0) k) ∧
  (∀ t, store.indicator.getD i (fun _ => 0) t < K)

section Helpers

lemma getD_set_self {α : Type} (l : List α) (i : ℕ) (a d : α)
    (h : i < l.length) : (l.set i a).getD i d = a := by
  simp [List.getD_eq_getElem?_getD, List.getElem?_set_self', h,
    List.getElem?_eq_getElem]

lemma getD_set_ne {α : Type} (l : List α) (i j : ℕ) (a d : α)
    (h : i ≠ j) : (l.set i a).getD j d = l.getD j d := by
  simp [List.getD_eq_getElem?_getD, List.getElem?_set_ne h]

lemma adjDiffs_nonneg :
    ∀ l : List ℚ, l.Sorted (· ≤ ·) → ∀ d ∈ adjDiffs l, 0 ≤ d := by
  intro l
  induction l with
  | nil => intro _ d hd; simp [adjDiffs] at hd
  | cons a rest ih =>
    cases rest with
    | nil => intro _ d hd; simp [adjDiffs] at hd
    | cons b t =>
      intro hs d hd
      have hab : a ≤ b := (List.sorted_cons.mp hs).1 b (by simp)
      have hs2 : (b :: t).Sorted (· ≤ ·) := (List.sorted_cons.mp hs).2
      have : adjDiffs (a :: b :: t) = (b - a) :: adjDiffs (b :: t) := rfl
      rw [this] at hd
      rcases List.mem_cons.mp hd with h | h
      · rw [h]; exact sub_nonneg.mpr hab
      · exact ih hs2 d h

lemma mem_sortedTimes {times : List ℚ} {y : ℚ} (h : y ∈ sortedTimes times) :
    y ∈ times :=
  (List.perm_insertionSort (· ≤ ·) times).mem_iff.mp h

end Helpers

/-- C4 counterexample: for durations `[1, 6, 7]` the derived time scale is 5,
the gap adjacent to the smallest value, while the smallest positive gap
between adjacent sorted values is 1. -/
theorem ts_not_smallest_gap :
    specSmallestPosGap [1, 6, 7] = some 1 ∧
    tsOf [1, 6, 7] = some (some 5) ∧
    tsOf [1, 6, 7] ≠ (specSmallestPosGap [1, 6, 7]).map some := by
  have h1 : specSmallestPosGap [1, 6, 7] = some 1 := by
    norm_num [specSmallestPosGap, sortedTimes, adjDiffs, List.insertionSort,
      List.orderedInsert, List.min?]
  have h2 : tsOf [1, 6, 7] = some (some 5) := by
    rw [tsOf, if_neg (by simp)]
    norm_num [sortedTimes, adjDiffs, List.insertionSort, List.orderedInsert]
  refine ⟨h1, h2, ?_⟩
  rw [h1, h2]
  simp

/-- C4 (amended): for every non-empty duration sequence the derived time scale
is the first positive gap between adjacent values of the sorted sequence (the
gap from the block of smallest values to the next distinct value), not the
smallest positive gap. -/
theorem ts_first_positive_gap (times : List ℚ) (h : times ≠ []) :
    tsOf times = (specFirstPosGap times).map some := by
  unfold tsOf specFirstPosGap
  rw [if_neg h]
  have hsor : (sortedTimes times).Sorted (· ≤ ·) :=
    List.sorted_insertionSort (· ≤ ·) times
  have hcong :
      (adjDiffs (sortedTimes times)).filter (fun d => decide (d ≠ 0)) =
      (adjDiffs (sortedTimes times)).filter (fun d => decide (0 < d)) := by
    apply List.filter_congr
    intro d hd
    have h0 : 0 ≤ d := adjDiffs_nonneg _ hsor d hd
    have hiff : (d ≠ 0) ↔ (0 < d) :=
      ⟨fun hne => lt_of_le_of_ne h0 (Ne.symm hne), fun hlt => ne_of_gt hlt⟩
    exact decide_eq_decide.mpr hiff
  rw [hcong]

/-- C4 witness: the amended description evaluated at `[1, 6, 7]`. -/
theorem ts_first_positive_gap_witness :
    tsOf [1, 6, 7] = (specFirstPosGap [1, 6, 7]).map some :=
  ts_first_positive_gap [1, 6, 7] (by decide)

/-- C5 counterexample: the empty duration sequence has fewer than two distinct
values, yet the initializer does not fail: it silently sets the time scale to
None (here `some none`). -/
theorem ts_empty_silent :
    (([] : List ℚ).dedup.length < 2) ∧ tsOf [] = some none := by
  refine ⟨by decide, rfl⟩

/-- C5 (amended): for every non-empty duration sequence with fewer than two
distinct values, the time-scale derivation of the initializer fails (an
uncaught indexing error, modelled by `none`) before any sampling state is
allocated; only the empty sequence is silently accepted. -/
theorem ts_fails_on_degenerate (times : List ℚ) (hne : times ≠ [])
    (hdeg : times.dedup.length < 2) :
    tsOf times = none := by
  have hlen1 : times.dedup.length = 1 := by
    have h0 : times.dedup ≠ [] := by
      intro h; exact hne ((List.dedup_eq_nil times).mp h)
    have : 0 < times.dedup.length := List.length_pos.mpr h0
    omega
  obtain ⟨a, ha⟩ := List.length_eq_one.mp hlen1
  have hall : ∀ y ∈ times, y = a := by
    intro y hy
    have : y ∈ times.dedup := List.mem_dedup.mpr hy
    rw [ha] at this
    simpa using this
  have hallS : ∀ y ∈ sortedTimes times, y = a := fun y hy =>
    hall y (mem_sortedTimes hy)
  have hdiff : ∀ d ∈ adjDiffs (sortedTimes times), d = 0 := by
    intro d hd
    unfold adjDiffs at hd
    obtain ⟨p, hp, hpd⟩ := List.mem_map.mp hd
    have h1 : p.1 ∈ sortedTimes times := (List.of_mem_zip hp).1
    have h2 : p.2 ∈ sortedTimes times :=
      List.mem_of_mem_tail (List.of_mem_zip hp).2
    rw [← hpd, hallS p.1 h1, hallS p.2 h2]
    ring
  have hfilter :
      (adjDiffs (sortedTimes times)).filter (fun d => decide (d ≠ 0)) = [] := by
    rw [List.filter_eq_nil_iff]
    intro d hd
    simp [hdiff d hd]
  unfold tsOf
  rw [if_neg hne, hfilter]
  rfl

/-- C5 witness: the degenerate sequence `[5, 5, 5]` makes the derivation
fail. -/
theorem ts_fails_on_degenerate_witness :
    (([5, 5, 5] : List ℚ) ≠ [] ∧ ([5, 5, 5] : List ℚ).dedup.length < 2) ∧
    tsOf [5, 5, 5] = none :=
  ⟨⟨by decide, by decide⟩, ts_fails_on_degenerate [5, 5, 5] (by decide) (by decide)⟩

/-- C1: in every sampler iteration the unnormalized responsibility of
observation `t` to component `k` is `w_k * r_k * exp(-r_k * t)`; each
normalized responsibility row sums to 1 and the latent labels are one
categorical draw from that row distribution; the new weight vector is one
dirichlet draw at concentration `whypers + N` and each new rate is one gamma
draw with shape `rhypers[k,0] + N_k` and scale `1 / (rhypers[k,1] + T_k)`. -/
theorem gibbs_step_conjugate_updates (K N : ℕ) (hK : 0 < K) (pexp : ℚ → ℚ)
    (wh : Fin K → ℚ) (rh : Fin K → ℚ × ℚ) (x : Fin N → ℚ) (d : Draws K N)
    (st : GState K) (hw : ∀ k, 0 < st.weights k) (hr : ∀ k, 0 < st.rates k)
    (hexp : ∀ q, 0 < pexp q) :
    (∀ t k, tmpResp pexp st.weights st.rates x t k
        = st.weights k * st.rates k * pexp (-(st.rates k * x t))) ∧
    (∀ t, ∑ k, zResp pexp st.weights st.rates x t k = 1) ∧
    ((gibbsStep pexp wh rh x d st).2
        = d.label (zResp pexp st.weights st.rates x)) ∧
    ((gibbsStep pexp wh rh x d st).1.weights
        = d.dirichlet (fun k =>
            wh k + (NsOf ((gibbsStep pexp wh rh x d st).2) k : ℚ))) ∧
    (∀ k, (gibbsStep pexp wh rh x d st).1.rates k
        = d.gamma k ((rh k).1 + (NsOf ((gibbsStep pexp wh rh x d st).2) k : ℚ))
            (1 / ((rh k).2 + TsOf x ((gibbsStep pexp wh rh x d st).2) k))) := by
  have hpos : ∀ t k, 0 < tmpResp pexp st.weights st.rates x t k := fun t k =>
    mul_pos (mul_pos (hw k) (hr k)) (hexp _)
  refine ⟨fun t k => by simp [tmpResp, neg_mul], fun t => ?_, rfl, rfl,
    fun k => rfl⟩
  have : Nonempty (Fin K) := ⟨⟨0, hK⟩⟩
  have hS : 0 < ∑ m, tmpResp pexp st.weights st.rates x t m :=
    Finset.sum_pos (fun m _ => hpos t m) Finset.univ_nonempty
  unfold zResp
  rw [← Finset.sum_div, div_self hS.ne']

/-- C1 witness: the normalized responsibility rows sum to 1 at a concrete
instantiation. -/
theorem gibbs_step_conjugate_updates_witness :
    ∑ k, zResp expOne gInit.weights gInit.rates onesx 0 k = 1 :=
  (gibbs_step_conjugate_updates 1 1 Nat.one_pos expOne (whypersOf 1)
    (rhypersOf 1) onesx drawsA gInit (fun _ => one_pos) (fun _ => one_pos)
    (fun _ => one_pos)).2.1 0

/-- C10: the label chain store is a `np.uint8` array: every value written is
the sampled label reduced modulo 256, which round-trips exactly when the
component count is at most 256 and silently truncates label values otherwise. -/
theorem label_store_uint8 (K N : ℕ) (pexp : ℚ → ℚ) (wh : Fin K → ℚ)
    (rh : Fin K → ℚ × ℚ) (x : Fin N → ℚ) (ds : ℕ → Draws K N) (g j : ℕ)
    (acc : GState K × ChainStore K N) (t : Fin N) (hj : j % g = 0)
    (hlen : j / g - 1 < acc.2.indicator.length) :
    ((stepWrite pexp wh rh x ds g j acc).2.indicator.getD (j / g - 1)
        (fun _ => 0)) t
      = storeLabel ((gibbsStep pexp wh rh x (ds j) acc.1).2 t).val ∧
    (∀ v : ℕ, storeLabel v = v % 256) ∧
    (K ≤ 256 → ∀ s : Fin K, storeLabel s.val = s.val) ∧
    (256 < K → storeLabel 256 ≠ 256) := by
  refine ⟨?_, fun v => rfl,
    fun hK s => Nat.mod_eq_of_lt (lt_of_lt_of_le s.isLt hK),
    fun _ => by decide⟩
  simp only [stepWrite, if_pos hj]
  rw [getD_set_self _ _ _ _ hlen]

/-- C10 witness: a concrete checkpoint write records the uint8-cast label. -/
theorem label_store_uint8_witness :
    ((stepWrite expOne (whypersOf 1) (rhypersOf 1) onesx (fun _ => drawsA) 1 1
        (gInit, zeroStore 1 1 1)).2.indicator.getD 0 (fun _ => 0)) 0
      = storeLabel ((gibbsStep expOne (whypersOf 1) (rhypersOf 1) onesx drawsA
        (gInit, zeroStore 1 1 1).1).2 0).val ∧
    (∀ v : ℕ, storeLabel v = v % 256) ∧
    ((1 : ℕ) ≤ 256 → ∀ s : Fin 1, storeLabel s.val = s.val) ∧
    (256 < (1 : ℕ) → storeLabel 256 ≠ 256) :=
  label_store_uint8 1 1 expOne (whypersOf 1) (rhypersOf 1) onesx
    (fun _ => drawsA) 1 1 (gInit, zeroStore 1 1 1) 0 (by decide) (by decide)

lemma runAux_lengths (K N : ℕ) (pexp : ℚ → ℚ) (wh : Fin K → ℚ)
    (rh : Fin K → ℚ × ℚ) (x : Fin N → ℚ) (ds : ℕ → Draws K N) (g rows : ℕ)
    (init : GState K) : ∀ m,
    (runAux pexp wh rh x ds g rows init m).2.mcweights.length = rows ∧
    (runAux pexp wh rh x ds g rows init m).2.mcrates.length = rows ∧
    (runAux pexp wh rh x ds g rows init m).2.indicator.length = rows := by
  intro m
  induction m with
  | zero => simp [runAux, zeroStore]
  | succ m ih =>
    simp only [runAux, stepWrite]
    by_cases h : (m + 1) % g = 0
    · simp only [if_pos h, List.length_set]
      exact ih
    · simp only [if_neg h]
      exact ih

/-- C3: the chain-store arrays allocated by the sampler have
`(niter + 1) // g` rows; a checkpoint is written exactly at the iterations
`j` with `j % g == 0`, at row `j // g - 1`, and every such row index is in
bounds — in particular no out-of-bounds write happens at the final
checkpoint when `g` does not divide `niter`. -/
theorem checkpoint_layout_safe (K N : ℕ) (pexp : ℚ → ℚ) (wh : Fin K → ℚ)
    (rh : Fin K → ℚ × ℚ) (x : Fin N → ℚ) (ds : ℕ → Draws K N)
    (init : GState K) (niter g : ℕ) (_hniter : 1 ≤ niter) (hg : 1 ≤ g) :
    ((runGibbs pexp wh rh x ds niter g init).2.mcweights.length
        = (niter + 1) / g ∧
      (runGibbs pexp wh rh x ds niter g init).2.mcrates.length
        = (niter + 1) / g ∧
      (runGibbs pexp wh rh x ds niter g init).2.indicator.length
        = (niter + 1) / g) ∧
    (∀ j, 1 ≤ j → j ≤ niter → j % g = 0 → j / g - 1 < (niter + 1) / g) ∧
    (∀ j acc, j % g ≠ 0 → (stepWrite pexp wh rh x ds g j acc).2 = acc.2) := by
  refine ⟨runAux_lengths K N pexp wh rh x ds g ((niter + 1) / g) init niter,
    fun j h1 h2 hmod => ?_, fun j acc hmod => by simp [stepWrite, if_neg hmod]⟩
  have hdvd : g ∣ j := Nat.dvd_of_mod_eq_zero hmod
  have hgj : g ≤ j := Nat.le_of_dvd (by omega) hdvd
  have hone : 1 ≤ j / g := (Nat.one_le_div_iff (by omega)).mpr hgj
  have hle : j / g ≤ (niter + 1) / g := Nat.div_le_div_right (by omega)
  omega

/-- C3 witness: layout at `niter = 250`, `g = 100`, where the interval does
not divide the iteration count. -/
theorem checkpoint_layout_safe_witness :
    ((runGibbs expOne (whypersOf 1) (rhypersOf 1) onesx (fun _ => drawsA)
        250 100 gInit).2.mcweights.length = (250 + 1) / 100 ∧
      (runGibbs expOne (whypersOf 1) (rhypersOf 1) onesx (fun _ => drawsA)
        250 100 gInit).2.mcrates.length = (250 + 1) / 100 ∧
      (runGibbs expOne (whypersOf 1) (rhypersOf 1) onesx (fun _ => drawsA)
        250 100 gInit).2.indicator.length = (250 + 1) / 100) ∧
    (∀ j, 1 ≤ j → j ≤ 250 → j % 100 = 0 → j / 100 - 1 < (250 + 1) / 100) ∧
    (∀ j acc, j % 100 ≠ 0 →
      (stepWrite expOne (whypersOf 1) (rhypersOf 1) onesx (fun _ => drawsA)
        100 j acc).2 = acc.2) :=
  checkpoint_layout_safe 1 1 expOne (whypersOf 1) (rhypersOf 1) onesx
    (fun _ => drawsA) gInit 250 100 (by decide) (by decide)

lemma runAux_rowOK (K N : ℕ) (pexp : ℚ → ℚ) (wh : Fin K → ℚ)
    (rh : Fin K → ℚ × ℚ) (x : Fin N → ℚ) (ds : ℕ → Draws K N)
    (init : GState K) (g rows : ℕ)
    (hdir1 : ∀ j α, ∑ k, (ds j).dirichlet α k = 1)
    (hdir0 : ∀ j α k, 0 ≤ (ds j).dirichlet α k)
    (hgam : ∀ j k a b, 0 < (ds j).gamma k a b) :
    ∀ m, m / g ≤ rows → ∀ i, i < m / g →
      RowOK K N ((runAux pexp wh rh x ds g rows init m).2) i := by
  intro m
  induction m with
  | zero =>
    intro _ i hi
    rw [Nat.zero_div] at hi
    exact absurd hi (Nat.not_lt_zero i)
  | succ m ih =>
    intro hle i hi
    by_cases hd : g ∣ (m + 1)
    · have hsucc : (m + 1) / g = m / g + 1 := by
        rw [Nat.succ_div, if_pos hd]
      have hmod : (m + 1) % g = 0 := Nat.mod_eq_zero_of_dvd hd
      obtain ⟨lw, lr, li⟩ := runAux_lengths K N pexp wh rh x ds g rows init m
      have hwlt : m / g < rows := by omega
      have hidx : (m + 1) / g - 1 = m / g := by omega
      simp only [runAux, stepWrite, if_pos hmod, hidx]
      rcases Nat.lt_or_ge i (m / g) with hlt | hge
      · have hne : m / g ≠ i := by omega
        unfold RowOK
        simp only [getD_set_ne _ _ _ _ _ hne]
        exact ih (by omega) i hlt
      · have hieq : i = m / g := by omega
        subst hieq
        refine ⟨?_, fun k => ?_, fun k => ?_, fun t => ?_⟩
        · rw [getD_set_self _ _ _ _ (by rw [lw]; exact hwlt)]
          exact hdir1 (m + 1) _
        · rw [getD_set_self _ _ _ _ (by rw [lw]; exact hwlt)]
          exact hdir0 (m + 1) _ k
        · rw [getD_set_self _ _ _ _ (by rw [lr]; exact hwlt)]
          exact hgam (m + 1) k _ _
        · rw [getD_set_self _ _ _ _ (by rw [li]; exact hwlt)]
          exact lt_of_le_of_lt (Nat.mod_le _ _) (Fin.is_lt _)
    · have hmod : (m + 1) % g ≠ 0 := fun h => hd (Nat.dvd_of_mod_eq_zero h)
      have hsucc : (m + 1) / g = m / g := by
        rw [Nat.succ_div, if_neg hd]
        omega
      simp only [runAux, stepWrite, if_neg hmod]
      exact ih (by omega) i (by omega)

/-- C2: under the distributional facts about the generator draws — every
dirichlet draw is a simplex point and every gamma draw is positive — every
checkpoint row written during a run has a non-negative weight vector summing
to 1, a strictly positive rate vector, and all recorded labels in
`[0, K)`. -/
theorem chain_store_invariants (K N : ℕ) (pexp : ℚ → ℚ) (wh : Fin K → ℚ)
    (rh : Fin K → ℚ × ℚ) (x : Fin N → ℚ) (ds : ℕ → Draws K N)
    (init : GState K) (niter g : ℕ)
    (hdir1 : ∀ j α, ∑ k, (ds j).dirichlet α k = 1)
    (hdir0 : ∀ j α k, 0 ≤ (ds j).dirichlet α k)
    (hgam : ∀ j k a b, 0 < (ds j).gamma k a b) :
    ∀ i, i < niter / g →
      RowOK K N ((runGibbs pexp wh rh x ds niter g init).2) i := by
  intro i hi
  exact runAux_rowOK K N pexp wh rh x ds init g ((niter + 1) / g)
    hdir1 hdir0 hgam niter
    (Nat.div_le_div_right (Nat.le_succ niter)) i hi

/-- C2 witness: the invariants of the first checkpoint row of a concrete
two-iteration run. -/
theorem chain_store_invariants_witness :
    RowOK 1 1 ((runGibbs expOne (whypersOf 1) (rhypersOf 1) onesx
      (fun _ => drawsA) 2 1 gInit).2) 0 :=
  chain_store_invariants 1 1 expOne (whypersOf 1) (rhypersOf 1) onesx
    (fun _ => drawsA) gInit 2 1
    (fun _ _ => by simp [drawsA])
    (fun _ _ _ => by simp [drawsA])
    (fun _ _ _ _ => by simp [drawsA]) 0 (by decide)

lemma stepWrite_congr (K N : ℕ) (pexp : ℚ → ℚ) (wh : Fin K → ℚ)
    (rh : Fin K → ℚ × ℚ) (x : Fin N → ℚ) (ds ds' : ℕ → Draws K N) (g j : ℕ)
    (acc : GState K × ChainStore K N) (h : ds j = ds' j) :
    stepWrite pexp wh rh x ds g j acc = stepWrite pexp wh rh x ds' g j acc := by
  simp only [stepWrite, h]

/-- C8 counterexample: the sampler reads the module-level generator stream,
which is not reseeded between runs; a second run with identical inputs
consumes the stream where the first run left it (offset by the draws already
consumed) and records a different checkpoint, so the two chain stores are not
byte-identical. -/
theorem run_shared_rng_not_reproducible :
    ((runGibbs expOne (whypersOf 1) (rhypersOf 1) onesx sharedStream 1 1
        gInit).2.mcweights.getD 0 (fun _ => 0)) 0 = 1 ∧
    ((runGibbs expOne (whypersOf 1) (rhypersOf 1) onesx
        (fun j => sharedStream (j + 1)) 1 1
        gInit).2.mcweights.getD 0 (fun _ => 0)) 0 = 2 ∧
    (runGibbs expOne (whypersOf 1) (rhypersOf 1) onesx sharedStream 1 1
        gInit).2
      ≠ (runGibbs expOne (whypersOf 1) (rhypersOf 1) onesx
        (fun j => sharedStream (j + 1)) 1 1 gInit).2 := by
  have h1 : ((runGibbs expOne (whypersOf 1) (rhypersOf 1) onesx sharedStream
      1 1 gInit).2.mcweights.getD 0 (fun _ => 0)) 0 = 1 := rfl
  have h2 : ((runGibbs expOne (whypersOf 1) (rhypersOf 1) onesx
      (fun j => sharedStream (j + 1)) 1 1
      gInit).2.mcweights.getD 0 (fun _ => 0)) 0 = 2 := rfl
  refine ⟨h1, h2, fun h => ?_⟩
  rw [h] at h1
  exact absurd (h1.symm.trans h2) (by norm_num)

/-- C8 (amended): the sampler is a deterministic function of its inputs and
of the consumed generator stream: two runs whose streams agree on the
consumed indices `1..niter` produce identical final states and identical
chain stores.  Reproducibility holds for the stream, not for the public
interface, which offers no way to fix a seed. -/
theorem run_deterministic_in_stream (K N : ℕ) (pexp : ℚ → ℚ)
    (wh : Fin K → ℚ) (rh : Fin K → ℚ × ℚ) (x : Fin N → ℚ)
    (ds ds' : ℕ → Draws K N) (init : GState K) (niter g : ℕ)
    (hagree : ∀ j, 1 ≤ j → j ≤ niter → ds j = ds' j) :
    runGibbs pexp wh rh x ds niter g init
      = runGibbs pexp wh rh x ds' niter g init := by
  suffices h : ∀ m, m ≤ niter →
      runAux pexp wh rh x ds g ((niter + 1) / g) init m
        = runAux pexp wh rh x ds' g ((niter + 1) / g) init m from
    h niter le_rfl
  intro m
  induction m with
  | zero => intro _; rfl
  | succ m ih =>
    intro hm
    simp only [runAux]
    rw [ih (by omega)]
    exact stepWrite_congr K N pexp wh rh x ds ds' g (m + 1) _
      (hagree (m + 1) (by omega) hm)

/-- C8 witness: two streams agreeing on the consumed index produce equal
runs. -/
theorem run_deterministic_in_stream_witness :
    runGibbs expOne (whypersOf 1) (rhypersOf 1) onesx (fun _ => drawsA) 1 1
        gInit
      = runGibbs expOne (whypersOf 1) (rhypersOf 1) onesx
        (fun j => if j = 0 then drawsB else drawsA) 1 1 gInit :=
  run_deterministic_in_stream 1 1 expOne (whypersOf 1) (rhypersOf 1) onesx
    (fun _ => drawsA) (fun j => if j = 0 then drawsB else drawsA) gInit 1 1
    (fun j h1 h2 => by
      have hj : j = 1 := le_antisymm h2 h1
      subst hj
      rfl)

/-- C6: with a cutoff above every sampled weight the post-processor computes
a reduced component count of 0 and still invokes the clustering fit, which
fails with the generic invalid-cluster-count error of the clustering library;
no descriptive empty-reduction error precedes the clustering call. -/
theorem empty_reduction_not_raised :
    listMode (lensOf [[(1 : ℚ)/2, 1/2]] (11/10)) = 0 ∧
    processGibbs [[1/2, 1/2]] [[1, 2]] [[0]] 1 (11/10) 0 1 (fun q => q)
      (fun _ _ => [0]) = .error .kmeansBadNClusters := by
  constructor
  · norm_num [listMode, lensOf, List.insertionSort, List.orderedInsert,
      List.filter_cons, List.count_cons]
  · norm_num [processGibbs, kmeansFit, listMode, lensOf, survPairs, survVals,
      membershipRow, membershipCounts, nthD, qdivNaN, Except.map,
      List.insertionSort, List.orderedInsert, List.count_cons,
      List.range_succ, List.filter_cons]

set_option maxHeartbeats 8000000 in
/-- C7: the membership accumulation reads the label row `indicator[j]` at the
post-burn-in offset `j` instead of the absolute checkpoint row
`burnin_ind + j`; in this concrete run observation 0 is assigned to the
surviving pair `(0, 0)` at the only post-burn-in checkpoint (absolute row 1),
yet its accumulated count row is all-zero and the returned membership row is
the NaN row produced by the zero-total division, instead of summing to 1. -/
theorem membership_burnin_misaligned :
    survPairs ([[(1 : ℚ)/2, 1/2], [3/4, 1/5]].drop (1 / 1)) (1/4)
      = [(0, 0)] ∧
    nthD (nthD ([[1], [0]] : List (List ℕ)) 1 []) 0 99 = 0 ∧
    (processGibbs [[1/2, 1/2], [3/4, 1/5]] [[1, 2], [2, 3]] [[1], [0]] 1
      (1/4) 1 1 (fun q => q) (fun _ _ => [0])).map Processed.membership
      = .ok [[none]] := by
  refine ⟨?_, by decide, ?_⟩
  · norm_num [survPairs, nthD, List.range_succ, List.filterMap_cons,
      List.filterMap_nil]
  · norm_num [processGibbs, kmeansFit, listMode, lensOf, survPairs, survVals,
      membershipRow, membershipCounts, nthD, qdivNaN, Except.map,
      List.insertionSort, List.orderedInsert, List.count_cons,
      List.range_succ, List.filter_cons, Nat.div_one, List.filterMap_cons,
      List.filterMap_nil]

set_option maxHeartbeats 8000000 in
lemma survLogData_ex :
    survLogData mcwEx mcrEx (1/4) 0 plogEx
      = [(0, 10), (0, 11), (1, 10), (1, 11)] := by
  norm_num [survLogData, survPairs, survVals, nthD, plogEx, mcwEx, mcrEx,
    List.range_succ, List.filterMap_cons]

set_option maxHeartbeats 8000000 in
/-- C9 counterexample: on this chain store the surviving pairs form a unit
square in log space; both the left-right split and the top-bottom split are
fixed points of the clustering iteration, so both are outcomes the unseeded
randomized clustering fit can return on the two invocations, and the two
resulting cluster assignments are not related by any permutation of the
cluster labels. -/
theorem postprocess_clustering_not_permutation_stable :
    isKMeansOutcome 2 (survLogData mcwEx mcrEx (1/4) 0 plogEx)
      [0, 0, 1, 1] = true ∧
    isKMeansOutcome 2 (survLogData mcwEx mcrEx (1/4) 0 plogEx)
      [0, 1, 0, 1] = true ∧
    (processGibbs mcwEx mcrEx indEx 2 (1/4) 0 1 plogEx
      (fun _ _ => [0, 0, 1, 1])).map Processed.labels = .ok [0, 0, 1, 1] ∧
    (processGibbs mcwEx mcrEx indEx 2 (1/4) 0 1 plogEx
      (fun _ _ => [0, 1, 0, 1])).map Processed.labels = .ok [0, 1, 0, 1] ∧
    samePartitionB [0, 0, 1, 1] [0, 1, 0, 1] = false := by
  refine ⟨?_, ?_, ?_, ?_, by decide⟩
  · rw [survLogData_ex]
    norm_num [isKMeansOutcome, clusterPoints, centroidOf, sqdist,
      List.range_succ, List.filter_cons, List.all_cons, List.cons_ne_nil]
  · rw [survLogData_ex]
    norm_num [isKMeansOutcome, clusterPoints, centroidOf, sqdist,
      List.range_succ, List.filter_cons, List.all_cons, List.cons_ne_nil]
  · norm_num [processGibbs, kmeansFit, listMode, lensOf, survPairs, survVals,
      nthD, mcwEx, mcrEx, indEx, plogEx, Except.map, List.insertionSort,
      List.orderedInsert, List.count_cons, List.range_succ, List.filter_cons,
      Nat.div_one, List.filterMap_cons, List.filterMap_nil]
  · norm_num [processGibbs, kmeansFit, listMode, lensOf, survPairs, survVals,
      nthD, mcwEx, mcrEx, indEx, plogEx, Except.map, List.insertionSort,
      List.orderedInsert, List.count_cons, List.range_succ, List.filter_cons,
      Nat.div_one, List.filterMap_cons, List.filterMap_nil]

/-- C9 (amended): the reduced component count and the surviving weight and
rate collections returned by the post-processor do not depend on the
clustering oracle, hence are identical across repeated invocations on the
same chain store; only the cluster labeling comes from the randomized fit. -/
theorem postprocess_core_oracle_independent (mcw mcr : List (List ℚ))
    (indicator : List (List ℕ)) (nObs : ℕ) (cutoff : ℚ) (burnin g : ℕ)
    (plog : ℚ → ℚ) (km1 km2 : ℕ → List (ℚ × ℚ) → List ℕ) :
    (processGibbs mcw mcr indicator nObs cutoff burnin g plog km1).map
        Processed.ncomp
      = (processGibbs mcw mcr indicator nObs cutoff burnin g plog km2).map
        Processed.ncomp ∧
    (processGibbs mcw mcr indicator nObs cutoff burnin g plog km1).map
        Processed.weights
      = (processGibbs mcw mcr indicator nObs cutoff burnin g plog km2).map
        Processed.weights ∧
    (processGibbs mcw mcr indicator nObs cutoff burnin g plog km1).map
        Processed.rates
      = (processGibbs mcw mcr indicator nObs cutoff burnin g plog km2).map
        Processed.rates := by
  refine ⟨?_, ?_, ?_⟩ <;>
    · simp only [processGibbs, kmeansFit]
      split_ifs <;> rfl

end Basicrta
